import Mathlib

/-!
Verification of the PeriPy neighbour-list core: the family counter, the
neighbour-list builder and the in-place bond breaker, together with the
distance kernel they share.  The repository ships the test suite for
`peridynamics.neighbour_list` (`test_neighbour_list.py`); the module itself
is not part of the visible sources, so the four functions are modelled from
the specification's component design (sections 4.1-4.4) and validated here
against the concrete scenarios of the test suite.

Coordinates are rational vectors (`List ℚ`).  The spec phrases every
proximity check as `euclidean distance < horizon` with a positive horizon;
since both sides are non-negative this is equivalent to comparing squared
distance against the squared horizon, which keeps every definition
executable (no square root is needed).  All comparisons below are therefore
stated with `euclidSq _ _ < horizon * horizon`.
-/

set_option allowUnsafeReducibility true in
attribute [semireducible] Rat.mul Rat.add Rat.sub Rat.div Rat.inv Rat.neg Rat.blt

/-- Modelled from the spec: the Distance Kernel (`euclid`, spec 4.1) returns
the Euclidean separation of two equal-dimension points; we work with its
square, the sum of squared component differences, to stay executable. -/
def euclidSq (p q : List ℚ) : ℚ :=
  (List.zipWith (fun a b => (a - b) * (a - b)) p q).sum

/-- The point of index `i` of a Coordinate Set (rows of `r`). -/
def pt (r : List (List ℚ)) (i : ℕ) : List ℚ :=
  r.getD i []

/-- Modelled from the spec: the proximity predicate every component shares,
`distance(i, j) < horizon`, written on squared distances. -/
def isClose (r : List (List ℚ)) (horizon : ℚ) (i j : ℕ) : Bool :=
  decide (euclidSq (pt r i) (pt r j) < horizon * horizon)

/-- Modelled from the spec: the ascending-index list of qualifying
neighbours of particle `i` (spec 4.3: "scan all other particles `j` in
ascending index order; if distance(i,j) < horizon, append `j`"). -/
def neighbours (r : List (List ℚ)) (horizon : ℚ) (i : ℕ) : List ℕ :=
  (List.range r.length).filter (fun j => decide (j ≠ i) && isClose r horizon i j)

/-- Modelled from the spec: the Family Counter (`family`, spec 4.2): entry
`i` counts the particles `j ≠ i` with `distance(i,j) < horizon`. -/
def family (r : List (List ℚ)) (horizon : ℚ) : List ℕ :=
  (List.range r.length).map (fun i => (neighbours r horizon i).length)

/-- Modelled from the spec: the Neighbour List Builder
(`create_neighbour_list`, spec 4.3).  Row `i` holds the first `capacity`
qualifying neighbours in ascending index order, padded with the sentinel
`0`; `valid_count i` is the number of qualifying neighbours, truncated at
`capacity`. -/
def create_neighbour_list (r : List (List ℚ)) (horizon : ℚ) (capacity : ℕ) :
    List (List ℕ) × List ℕ :=
  ((List.range r.length).map (fun i =>
      (neighbours r horizon i).take capacity
        ++ List.replicate (capacity - (neighbours r horizon i).length) 0),
   (List.range r.length).map (fun i => min (neighbours r horizon i).length capacity))

/-- Modelled from the spec: one iteration step of the Bond Breaker's
per-row loop (spec 4.4), as a fuel-indexed recursion.  While `k < count`,
the bond at slot `k` is kept (advance `k`) when still within the horizon,
and otherwise overwritten with the value at slot `count - 1` while `count`
shrinks, re-examining slot `k`.  Each iteration decreases `count - k` by
one, so `count - k` initial fuel runs the loop to completion. -/
def breakRowGo (r : List (List ℚ)) (horizon : ℚ) (i : ℕ) :
    ℕ → List ℕ → ℕ → ℕ → List ℕ × ℕ
  | 0, row, count, _ => (row, count)
  | fuel + 1, row, count, k =>
    if k < count then
      if isClose r horizon i (row.getD k 0) then
        breakRowGo r horizon i fuel row count (k + 1)
      else
        breakRowGo r horizon i fuel (row.set k (row.getD (count - 1) 0)) (count - 1) k
    else (row, count)

/-- Modelled from the spec: the Bond Breaker's treatment of a single row
(spec 4.4), started at slot `0` with exactly the fuel its loop consumes. -/
def breakRow (r : List (List ℚ)) (horizon : ℚ) (i : ℕ) (row : List ℕ) (count : ℕ) :
    List ℕ × ℕ :=
  breakRowGo r horizon i count row count 0

/-- Modelled from the spec: the Bond Breaker (`break_bonds`, spec 4.4):
every row is processed independently against the updated coordinates. -/
def break_bonds (r : List (List ℚ)) (nl : List (List ℕ)) (n_neigh : List ℕ)
    (horizon : ℚ) : List (List ℕ) × List ℕ :=
  ((List.range nl.length).map (fun i =>
      (breakRow r horizon i (nl.getD i []) (n_neigh.getD i 0)).1),
   (List.range nl.length).map (fun i =>
      (breakRow r horizon i (nl.getD i []) (n_neigh.getD i 0)).2))

/-- The four-particle Coordinate Set of the builder test scenario. -/
def coords4 : List (List ℚ) :=
  [[0, 0, 0], [1, 0, 0], [0, 1, 0], [2, 0, 0]]

/-- The five-particle Coordinate Set of the bond-breaker test scenario. -/
def coords5 : List (List ℚ) :=
  [[0, 0, 0], [1, 0, 0], [0, 1, 0], [2, 0, 0], [0, 0, 1]]

/-- The five-particle Coordinate Set after displacement: particle 1 moves
to (2,0,0), particle 3 to (3,0,0) and particle 4 to (0,0,2). -/
def coords5moved : List (List ℚ) :=
  [[0, 0, 0], [2, 0, 0], [0, 1, 0], [3, 0, 0], [0, 0, 2]]

/-! ### Generic list helpers -/

theorem getD_set_eq_ite (l : List ℕ) (k m v : ℕ) :
    (l.set k v).getD m 0 = if m = k ∧ k < l.length then v else l.getD m 0 := by
  rcases Nat.lt_or_ge k l.length with hk | hk
  · rcases eq_or_ne m k with rfl | hmk
    · simp [List.getD_eq_getElem?_getD, List.getElem?_set, hk]
    · simp [List.getD_eq_getElem?_getD, List.getElem?_set, hmk,
        if_neg (Ne.symm hmk)]
  · rw [List.set_eq_of_length_le hk]
    simp [Nat.not_lt_of_ge hk]

theorem getD_map_range {α : Type} (f : ℕ → α) (n i : ℕ) (d : α) :
    ((List.range n).map f).getD i d = if i < n then f i else d := by
  rcases Nat.lt_or_ge i n with h | h
  · simp [List.getD_eq_getElem?_getD, List.getElem?_range h, h]
  · have : ((List.range n).map f).length ≤ i := by simpa using h
    simp [List.getD_eq_getElem?_getD, List.getElem?_eq_none this, Nat.not_lt_of_ge h]

theorem mem_iff_getD {l : List ℕ} {j : ℕ} :
    j ∈ l ↔ ∃ m, m < l.length ∧ l.getD m 0 = j := by
  constructor
  · intro hj
    rcases List.mem_iff_getElem.mp hj with ⟨m, hm, rfl⟩
    exact ⟨m, hm, (List.getD_eq_getElem l 0 hm)⟩
  · rintro ⟨m, hm, rfl⟩
    rw [List.getD_eq_getElem l 0 hm]
    exact List.getElem_mem hm

/-! ### The neighbours list -/

theorem mem_neighbours {r : List (List ℚ)} {horizon : ℚ} {i j : ℕ} :
    j ∈ neighbours r horizon i ↔
      j < r.length ∧ j ≠ i ∧ isClose r horizon i j = true := by
  simp [neighbours, List.mem_filter]

theorem neighbours_pairwise (r : List (List ℚ)) (horizon : ℚ) (i : ℕ) :
    (neighbours r horizon i).Pairwise (· < ·) :=
  (List.pairwise_lt_range _).filter _

/-! ### Rows and counts produced by the builder -/

theorem create_fst_getD (r : List (List ℚ)) (horizon : ℚ) (capacity i : ℕ)
    (hi : i < r.length) :
    (create_neighbour_list r horizon capacity).1.getD i []
      = (neighbours r horizon i).take capacity
          ++ List.replicate (capacity - (neighbours r horizon i).length) 0 := by
  simp [create_neighbour_list, getD_map_range, hi]

theorem create_snd_getD (r : List (List ℚ)) (horizon : ℚ) (capacity i : ℕ) :
    (create_neighbour_list r horizon capacity).2.getD i 0
      = if i < r.length then min (neighbours r horizon i).length capacity else 0 := by
  simp only [create_neighbour_list]
  rw [getD_map_range]

theorem create_prefix_getD (r : List (List ℚ)) (horizon : ℚ) (capacity i m : ℕ)
    (hi : i < r.length)
    (hm : m < (create_neighbour_list r horizon capacity).2.getD i 0) :
    ((create_neighbour_list r horizon capacity).1.getD i []).getD m 0
      = (neighbours r horizon i).getD m 0 := by
  rw [create_fst_getD r horizon capacity i hi]
  rw [create_snd_getD, if_pos hi] at hm
  have hmlen : m < (neighbours r horizon i).length := lt_of_lt_of_le hm (min_le_left _ _)
  have hmcap : m < capacity := lt_of_lt_of_le hm (min_le_right _ _)
  have htake : m < ((neighbours r horizon i).take capacity).length := by
    simpa [List.length_take, Nat.lt_min] using ⟨hmcap, hmlen⟩
  rw [List.getD_eq_getElem?_getD, List.getElem?_append_left htake,
    List.getElem?_take_of_lt hmcap, ← List.getD_eq_getElem?_getD]

/-! ### Basic facts about the bond-breaker loop -/

theorem breakRowGo_length (r : List (List ℚ)) (horizon : ℚ) (i : ℕ) :
    ∀ (fuel : ℕ) (row : List ℕ) (count k : ℕ),
      (breakRowGo r horizon i fuel row count k).1.length = row.length := by
  intro fuel
  induction fuel with
  | zero => intro row count k; rfl
  | succ fuel ih =>
    intro row count k
    simp only [breakRowGo]
    split
    · split
      · exact ih row count (k + 1)
      · simpa using ih (row.set k (row.getD (count - 1) 0)) (count - 1) k
    · rfl

theorem breakRowGo_snd_le (r : List (List ℚ)) (horizon : ℚ) (i : ℕ) :
    ∀ (fuel : ℕ) (row : List ℕ) (count k : ℕ),
      (breakRowGo r horizon i fuel row count k).2 ≤ count := by
  intro fuel
  induction fuel with
  | zero => intro row count k; exact le_refl _
  | succ fuel ih =>
    intro row count k
    simp only [breakRowGo]
    split
    · split
      · exact ih row count (k + 1)
      · exact le_trans (ih _ (count - 1) k) (Nat.sub_le _ _)
    · exact le_refl _

theorem breakRowGo_le_snd (r : List (List ℚ)) (horizon : ℚ) (i : ℕ) :
    ∀ (fuel : ℕ) (row : List ℕ) (count k : ℕ), k ≤ count →
      k ≤ (breakRowGo r horizon i fuel row count k).2 := by
  intro fuel
  induction fuel with
  | zero => intro row count k hk; exact hk
  | succ fuel ih =>
    intro row count k hk
    simp only [breakRowGo]
    split
    · rename_i hlt
      split
      · exact le_trans (Nat.le_succ k) (ih row count (k + 1) hlt)
      · exact ih _ (count - 1) k (Nat.le_sub_one_of_lt hlt)
    · exact hk

theorem breakRowGo_getD_of_lt (r : List (List ℚ)) (horizon : ℚ) (i : ℕ) :
    ∀ (fuel : ℕ) (row : List ℕ) (count k m : ℕ), m < k →
      (breakRowGo r horizon i fuel row count k).1.getD m 0 = row.getD m 0 := by
  intro fuel
  induction fuel with
  | zero => intro row count k m _; rfl
  | succ fuel ih =>
    intro row count k m hm
    simp only [breakRowGo]
    split
    · split
      · exact ih row count (k + 1) m (lt_trans hm (Nat.lt_succ_self k))
      · rw [ih _ (count - 1) k m hm, getD_set_eq_ite,
          if_neg (fun hc => absurd hc.1 (Nat.ne_of_lt hm))]
    · rfl

theorem breakRowGo_getD_of_ge (r : List (List ℚ)) (horizon : ℚ) (i : ℕ) :
    ∀ (fuel : ℕ) (row : List ℕ) (count k m : ℕ), count ≤ m →
      (breakRowGo r horizon i fuel row count k).1.getD m 0 = row.getD m 0 := by
  intro fuel
  induction fuel with
  | zero => intro row count k m _; rfl
  | succ fuel ih =>
    intro row count k m hm
    simp only [breakRowGo]
    split
    · rename_i hlt
      split
      · exact ih row count (k + 1) m hm
      · rw [ih _ (count - 1) k m (le_trans (Nat.sub_le _ _) hm), getD_set_eq_ite,
          if_neg (fun hc => absurd hc.1 (Nat.ne_of_gt (lt_of_lt_of_le hlt hm)))]
    · rfl

theorem breakRowGo_close (r : List (List ℚ)) (horizon : ℚ) (i : ℕ) :
    ∀ (fuel : ℕ) (row : List ℕ) (count k : ℕ), count - k ≤ fuel →
      ∀ m, k ≤ m → m < (breakRowGo r horizon i fuel row count k).2 →
      isClose r horizon i ((breakRowGo r horizon i fuel row count k).1.getD m 0) = true := by
  intro fuel
  induction fuel with
  | zero =>
    intro row count k hf m hkm hm
    exact absurd (lt_of_lt_of_le hm (le_trans (Nat.le_of_sub_eq_zero
      (Nat.le_zero.mp hf)) hkm)) (lt_irrefl m)
  | succ fuel ih =>
    intro row count k hf m hkm hm
    simp only [breakRowGo] at hm ⊢
    by_cases hlt : k < count
    · rw [if_pos hlt] at hm ⊢
      by_cases hcl : isClose r horizon i (row.getD k 0) = true
      · rw [if_pos hcl] at hm ⊢
        rcases eq_or_lt_of_le hkm with rfl | hklt
        · rw [breakRowGo_getD_of_lt r horizon i fuel row count (k + 1) k
            (Nat.lt_succ_self k)]
          exact hcl
        · exact ih row count (k + 1) (by omega) m hklt hm
      · rw [if_neg hcl] at hm ⊢
        exact ih _ (count - 1) k (by omega) m hkm hm
    · rw [if_neg hlt] at hm ⊢
      exact absurd (lt_of_le_of_lt hkm hm) hlt

theorem breakRowGo_fix (r : List (List ℚ)) (horizon : ℚ) (i : ℕ) :
    ∀ (fuel : ℕ) (row : List ℕ) (count k : ℕ),
      (∀ m, k ≤ m → m < count → isClose r horizon i (row.getD m 0) = true) →
      breakRowGo r horizon i fuel row count k = (row, count) := by
  intro fuel
  induction fuel with
  | zero => intro row count k _; rfl
  | succ fuel ih =>
    intro row count k hall
    simp only [breakRowGo]
    by_cases hlt : k < count
    · rw [if_pos hlt, if_pos (hall k (le_refl k) hlt)]
      exact ih row count (k + 1) (fun m hm hmc => hall m (le_trans (Nat.le_succ k) hm) hmc)
    · rw [if_neg hlt]

theorem breakRowGo_ne_self (r : List (List ℚ)) (horizon : ℚ) (i : ℕ) :
    ∀ (fuel : ℕ) (row : List ℕ) (count k : ℕ),
      (∀ m, m < count → row.getD m 0 ≠ i) →
      ∀ m, m < (breakRowGo r horizon i fuel row count k).2 →
        (breakRowGo r horizon i fuel row count k).1.getD m 0 ≠ i := by
  intro fuel
  induction fuel with
  | zero => intro row count k hall m hm; exact hall m hm
  | succ fuel ih =>
    intro row count k hall m hm
    simp only [breakRowGo] at hm ⊢
    by_cases hlt : k < count
    · rw [if_pos hlt] at hm ⊢
      by_cases hcl : isClose r horizon i (row.getD k 0) = true
      · rw [if_pos hcl] at hm ⊢
        exact ih row count (k + 1) hall m hm
      · rw [if_neg hcl] at hm ⊢
        refine ih _ (count - 1) k ?_ m hm
        intro m' hm'
        rw [getD_set_eq_ite]
        split
        · exact hall (count - 1) (Nat.sub_lt (Nat.zero_lt_of_lt hlt) Nat.one_pos)
        · exact hall m' (lt_of_lt_of_le hm' (Nat.sub_le _ _))
    · rw [if_neg hlt] at hm ⊢
      exact hall m hm

theorem breakRowGo_mem_old (r : List (List ℚ)) (horizon : ℚ) (i : ℕ) :
    ∀ (fuel : ℕ) (row : List ℕ) (count k j : ℕ),
      (∃ m, m < (breakRowGo r horizon i fuel row count k).2 ∧
        (breakRowGo r horizon i fuel row count k).1.getD m 0 = j) →
      ∃ m, m < count ∧ row.getD m 0 = j := by
  intro fuel
  induction fuel with
  | zero => intro row count k j h; exact h
  | succ fuel ih =>
    intro row count k j h
    simp only [breakRowGo] at h
    by_cases hlt : k < count
    · rw [if_pos hlt] at h
      by_cases hcl : isClose r horizon i (row.getD k 0) = true
      · rw [if_pos hcl] at h
        exact ih row count (k + 1) j h
      · rw [if_neg hcl] at h
        rcases ih _ (count - 1) k j h with ⟨m, hm, hj⟩
        rw [getD_set_eq_ite] at hj
        by_cases hcase : m = k ∧ k < row.length
        · rw [if_pos hcase] at hj
          exact ⟨count - 1, Nat.sub_lt (Nat.zero_lt_of_lt hlt) Nat.one_pos, hj⟩
        · rw [if_neg hcase] at hj
          exact ⟨m, lt_of_lt_of_le hm (Nat.sub_le _ _), hj⟩
    · rw [if_neg hlt] at h
      exact h

theorem breakRowGo_mem_new (r : List (List ℚ)) (horizon : ℚ) (i : ℕ) :
    ∀ (fuel : ℕ) (row : List ℕ) (count k j : ℕ),
      count ≤ row.length →
      isClose r horizon i j = true →
      (∃ m, k ≤ m ∧ m < count ∧ row.getD m 0 = j) →
      ∃ m, m < (breakRowGo r horizon i fuel row count k).2 ∧
        (breakRowGo r horizon i fuel row count k).1.getD m 0 = j := by
  intro fuel
  induction fuel with
  | zero =>
    intro row count k j _ _ h
    rcases h with ⟨m, _, hmc, hj⟩
    exact ⟨m, hmc, hj⟩
  | succ fuel ih =>
    intro row count k j hlen hj h
    rcases h with ⟨m, hkm, hmc, hmj⟩
    simp only [breakRowGo]
    have hlt : k < count := lt_of_le_of_lt hkm hmc
    rw [if_pos hlt]
    by_cases hcl : isClose r horizon i (row.getD k 0) = true
    · rw [if_pos hcl]
      rcases eq_or_lt_of_le hkm with rfl | hklt
      · refine ⟨k, ?_, ?_⟩
        · exact lt_of_lt_of_le (Nat.lt_succ_self k)
            (breakRowGo_le_snd r horizon i fuel row count (k + 1) hlt)
        · rw [breakRowGo_getD_of_lt r horizon i fuel row count (k + 1) k
            (Nat.lt_succ_self k)]
          exact hmj
      · exact ih row count (k + 1) j hlen hj ⟨m, hklt, hmc, hmj⟩
    · rw [if_neg hcl]
      have hmk : m ≠ k := by
        intro hc; subst hc; rw [hmj] at hcl; exact hcl hj
      have hkm' : k < m := lt_of_le_of_ne hkm (fun hc => hmk (hc.symm))
      have hlen' : count - 1 ≤ (row.set k (row.getD (count - 1) 0)).length := by
        rw [List.length_set]; exact le_trans (Nat.sub_le _ _) hlen
      rcases eq_or_lt_of_le (Nat.le_sub_one_of_lt hmc) with hme | hmlt
      · refine ih _ (count - 1) k j hlen' hj ⟨k, le_refl k, ?_, ?_⟩
        · rw [← hme]; exact hkm'
        · rw [getD_set_eq_ite, if_pos ⟨rfl, lt_of_lt_of_le hlt hlen⟩, ← hme]
          exact hmj
      · refine ih _ (count - 1) k j hlen' hj ⟨m, le_of_lt hkm', hmlt, ?_⟩
        rw [getD_set_eq_ite, if_neg (fun hc => hmk hc.1), hmj]

/-! ### Row access for `break_bonds` -/

theorem break_bonds_fst_getD (r : List (List ℚ)) (nl : List (List ℕ)) (nn : List ℕ)
    (horizon : ℚ) (i : ℕ) (hi : i < nl.length) :
    (break_bonds r nl nn horizon).1.getD i []
      = (breakRow r horizon i (nl.getD i []) (nn.getD i 0)).1 := by
  simp only [break_bonds]
  rw [getD_map_range, if_pos hi]

theorem break_bonds_fst_getD_ge (r : List (List ℚ)) (nl : List (List ℕ)) (nn : List ℕ)
    (horizon : ℚ) (i : ℕ) (hi : nl.length ≤ i) :
    (break_bonds r nl nn horizon).1.getD i [] = [] := by
  simp only [break_bonds]
  rw [getD_map_range, if_neg (Nat.not_lt_of_ge hi)]

theorem break_bonds_snd_getD (r : List (List ℚ)) (nl : List (List ℕ)) (nn : List ℕ)
    (horizon : ℚ) (i : ℕ) :
    (break_bonds r nl nn horizon).2.getD i 0
      = if i < nl.length
          then (breakRow r horizon i (nl.getD i []) (nn.getD i 0)).2 else 0 := by
  simp only [break_bonds]
  rw [getD_map_range]

theorem create_fst_getD_ge (r : List (List ℚ)) (horizon : ℚ) (capacity i : ℕ)
    (hi : r.length ≤ i) :
    (create_neighbour_list r horizon capacity).1.getD i [] = [] := by
  simp only [create_neighbour_list]
  rw [getD_map_range, if_neg (Nat.not_lt_of_ge hi)]

theorem family_getD (r : List (List ℚ)) (horizon : ℚ) (i : ℕ) (hi : i < r.length) :
    (family r horizon).getD i 0 = (neighbours r horizon i).length := by
  simp only [family]
  rw [getD_map_range, if_pos hi]

theorem length_filter_range_eq_card (n : ℕ) (p : ℕ → Prop) [DecidablePred p] :
    ((List.range n).filter (fun j => decide (p j))).length
      = ((Finset.range n).filter p).card := by
  induction n with
  | zero => simp
  | succ n ih =>
    rw [List.range_succ, List.filter_append, List.length_append, ih,
      Finset.range_succ, Finset.filter_insert]
    by_cases hp : p n
    · rw [if_pos hp, Finset.card_insert_of_not_mem (by simp)]
      simp [hp]
    · rw [if_neg hp]
      simp [hp]

/-! ### Claims about the builder and the family counter -/

/-- C1: for distinct particle indices `i, j` of an `N`-point coordinate set,
positive horizon, and capacity at least the family sizes of `i` and `j`,
`j` lies among the first `valid_count[i]` entries of row `i` of the built
neighbour list iff the (squared) distance between points `i` and `j` is
strictly below the (squared) horizon. -/
theorem create_mem_prefix_iff_close (r : List (List ℚ)) (horizon : ℚ)
    (capacity i j : ℕ) (hpos : 0 < horizon) (hi : i < r.length) (hj : j < r.length)
    (hij : i ≠ j)
    (hfi : (family r horizon).getD i 0 ≤ capacity)
    (hfj : (family r horizon).getD j 0 ≤ capacity) :
    (∃ m, m < (create_neighbour_list r horizon capacity).2.getD i 0 ∧
        ((create_neighbour_list r horizon capacity).1.getD i []).getD m 0 = j)
      ↔ euclidSq (pt r i) (pt r j) < horizon * horizon := by
  rw [family_getD r horizon i hi] at hfi
  have hcount : (create_neighbour_list r horizon capacity).2.getD i 0
      = (neighbours r horizon i).length := by
    rw [create_snd_getD, if_pos hi, min_eq_left hfi]
  constructor
  · rintro ⟨m, hm, hval⟩
    rw [create_prefix_getD r horizon capacity i m hi hm] at hval
    rw [hcount] at hm
    have hjmem : j ∈ neighbours r horizon i := mem_iff_getD.mpr ⟨m, hm, hval⟩
    have := (mem_neighbours.mp hjmem).2.2
    simpa [isClose] using this
  · intro hclose
    have hjmem : j ∈ neighbours r horizon i :=
      mem_neighbours.mpr ⟨hj, Ne.symm hij, by simp [isClose, hclose]⟩
    rcases mem_iff_getD.mp hjmem with ⟨m, hm, hval⟩
    refine ⟨m, by rw [hcount]; exact hm, ?_⟩
    rw [create_prefix_getD r horizon capacity i m hi (by rw [hcount]; exact hm)]
    exact hval

/-- Witness for C1 on the four-particle test scenario: particle 1 is in the
prefix of row 0 iff it is within the horizon of particle 0 (it is). -/
theorem create_mem_prefix_iff_close_witness :
    (∃ m, m < (create_neighbour_list coords4 (11/10) 3).2.getD 0 0 ∧
        ((create_neighbour_list coords4 (11/10) 3).1.getD 0 []).getD m 0 = 1)
      ↔ euclidSq (pt coords4 0) (pt coords4 1) < (11/10) * (11/10) :=
  create_mem_prefix_iff_close coords4 (11/10) 3 0 1 (by decide) (by decide)
    (by decide) (by decide) (by decide) (by decide)

/-- C4: `family` has one entry per point; entry `i` is the number of indices
`j ≠ i` strictly within the horizon of `i`; and the count produced by
`create_neighbour_list` is that family count when the capacity is at least
it, and the capacity otherwise. -/
theorem family_counts_and_valid_count (r : List (List ℚ)) (horizon : ℚ)
    (hpos : 0 < horizon) :
    (family r horizon).length = r.length ∧
    ∀ i, i < r.length →
      (family r horizon).getD i 0 =
        ((Finset.range r.length).filter
          (fun j => j ≠ i ∧ euclidSq (pt r i) (pt r j) < horizon * horizon)).card ∧
      ∀ capacity : ℕ,
        ((family r horizon).getD i 0 ≤ capacity →
          (create_neighbour_list r horizon capacity).2.getD i 0
            = (family r horizon).getD i 0) ∧
        (capacity < (family r horizon).getD i 0 →
          (create_neighbour_list r horizon capacity).2.getD i 0 = capacity) := by
  refine ⟨by simp [family], ?_⟩
  intro i hi
  constructor
  · rw [family_getD r horizon i hi]
    rw [← length_filter_range_eq_card]
    simp only [neighbours]
    refine congrArg List.length (List.filter_congr ?_)
    intro j _
    by_cases h : j = i
    · simp [h]
    · simp [isClose, h]
  · intro capacity
    constructor
    · intro hcap
      rw [family_getD r horizon i hi] at hcap ⊢
      rw [create_snd_getD, if_pos hi, min_eq_left hcap]
    · intro hcap
      rw [family_getD r horizon i hi] at hcap
      rw [create_snd_getD, if_pos hi, min_eq_right (le_of_lt hcap)]

/-- Witness for C4 on the four-particle test scenario at particle 0. -/
theorem family_counts_and_valid_count_witness :
    (family coords4 (11/10)).getD 0 0 =
        ((Finset.range coords4.length).filter
          (fun j => j ≠ 0 ∧ euclidSq (pt coords4 0) (pt coords4 j)
            < (11/10) * (11/10))).card ∧
      ∀ capacity : ℕ,
        ((family coords4 (11/10)).getD 0 0 ≤ capacity →
          (create_neighbour_list coords4 (11/10) capacity).2.getD 0 0
            = (family coords4 (11/10)).getD 0 0) ∧
        (capacity < (family coords4 (11/10)).getD 0 0 →
          (create_neighbour_list coords4 (11/10) capacity).2.getD 0 0 = capacity) :=
  (family_counts_and_valid_count coords4 (11/10) (by decide)).2 0 (by decide)

/-- C5: in every row the builder produces, the first `valid_count[i]`
entries are strictly ascending particle indices and every later slot holds
the sentinel `0`; the four-particle scenario gives exactly the rows
`[1,2,0],[0,3,0],[0,0,0],[1,0,0]` with counts `[2,2,1,1]`. -/
theorem create_prefix_sorted_and_padding :
    (∀ (r : List (List ℚ)) (horizon : ℚ) (capacity i m m' : ℕ),
      m < m' → m' < (create_neighbour_list r horizon capacity).2.getD i 0 →
      ((create_neighbour_list r horizon capacity).1.getD i []).getD m 0
        < ((create_neighbour_list r horizon capacity).1.getD i []).getD m' 0) ∧
    (∀ (r : List (List ℚ)) (horizon : ℚ) (capacity i m : ℕ),
      (create_neighbour_list r horizon capacity).2.getD i 0 ≤ m →
      ((create_neighbour_list r horizon capacity).1.getD i []).getD m 0 = 0) ∧
    create_neighbour_list coords4 (11/10) 3
      = ([[1, 2, 0], [0, 3, 0], [0, 0, 0], [1, 0, 0]], [2, 2, 1, 1]) := by
  refine ⟨?_, ?_, by decide⟩
  · intro r horizon capacity i m m' hmm hm'
    by_cases hi : i < r.length
    · have hm : m < (create_neighbour_list r horizon capacity).2.getD i 0 :=
        lt_trans hmm hm'
      rw [create_prefix_getD r horizon capacity i m hi hm,
        create_prefix_getD r horizon capacity i m' hi hm']
      rw [create_snd_getD, if_pos hi] at hm hm'
      have hmlen : m < (neighbours r horizon i).length :=
        lt_of_lt_of_le hm (min_le_left _ _)
      have hm'len : m' < (neighbours r horizon i).length :=
        lt_of_lt_of_le hm' (min_le_left _ _)
      rw [List.getD_eq_getElem _ 0 hmlen, List.getD_eq_getElem _ 0 hm'len]
      exact List.pairwise_iff_getElem.mp (neighbours_pairwise r horizon i)
        m m' hmlen hm'len hmm
    · rw [create_snd_getD, if_neg hi] at hm'
      exact absurd hm' (Nat.not_lt_zero m')
  · intro r horizon capacity i m hm
    by_cases hi : i < r.length
    · rw [create_fst_getD r horizon capacity i hi]
      rw [create_snd_getD, if_pos hi] at hm
      have htake : ((neighbours r horizon i).take capacity).length ≤ m := by
        simpa [List.length_take, Nat.min_comm] using hm
      rw [List.getD_eq_getElem?_getD, List.getElem?_append_right htake,
        List.getElem?_replicate]
      split <;> rfl
    · rw [create_fst_getD_ge r horizon capacity i (Nat.le_of_not_lt hi)]
      rfl

/-- Witness for C5: in row 0 of the four-particle scenario, the two valid
entries are in ascending order. -/
theorem create_prefix_sorted_and_padding_witness :
    ((create_neighbour_list coords4 (11/10) 3).1.getD 0 []).getD 0 0
      < ((create_neighbour_list coords4 (11/10) 3).1.getD 0 []).getD 1 0 :=
  create_prefix_sorted_and_padding.1 coords4 (11/10) 3 0 0 1 (by decide) (by decide)

/-! ### Claims about the bond breaker -/

/-- C2: the bond breaker performs the swap-with-last removal (this is the
definition of `breakRowGo`); on the five-particle scenario — build at
horizon 1.1 and capacity 3, then break against the displaced coordinates —
it produces exactly the rows `[2,2,4],[3,3,0],[0,0,0],[1,0,0],[0,0,0]`
with counts `[1,1,1,1,0]`. -/
theorem break_bonds_concrete_scenario :
    create_neighbour_list coords5 (11/10) 3
      = ([[1, 2, 4], [0, 3, 0], [0, 0, 0], [1, 0, 0], [0, 0, 0]],
         [3, 2, 1, 1, 1]) ∧
    break_bonds coords5moved
        (create_neighbour_list coords5 (11/10) 3).1
        (create_neighbour_list coords5 (11/10) 3).2 (11/10)
      = ([[2, 2, 4], [3, 3, 0], [0, 0, 0], [1, 0, 0], [0, 0, 0]],
         [1, 1, 1, 1, 0]) :=
  ⟨by decide, by decide⟩

/-- C3: after `break_bonds`, every entry of the valid prefix of any row is
strictly within the horizon of its particle, measured with the coordinates
passed to that call. -/
theorem break_bonds_prefix_within_horizon (r : List (List ℚ)) (nl : List (List ℕ))
    (nn : List ℕ) (horizon : ℚ) (hpos : 0 < horizon) (i k : ℕ)
    (hk : k < (break_bonds r nl nn horizon).2.getD i 0) :
    euclidSq (pt r i)
        (pt r (((break_bonds r nl nn horizon).1.getD i []).getD k 0))
      < horizon * horizon := by
  by_cases hi : i < nl.length
  · rw [break_bonds_snd_getD, if_pos hi] at hk
    rw [break_bonds_fst_getD r nl nn horizon i hi]
    simp only [breakRow] at hk ⊢
    have := breakRowGo_close r horizon i (nn.getD i 0) (nl.getD i [])
      (nn.getD i 0) 0 (by omega) k (Nat.zero_le k) hk
    simpa [isClose] using this
  · rw [break_bonds_snd_getD, if_neg hi] at hk
    exact absurd hk (Nat.not_lt_zero k)

/-- Witness for C3 on the five-particle scenario: the surviving entry of
row 0 after breaking is within the horizon of particle 0. -/
theorem break_bonds_prefix_within_horizon_witness :
    euclidSq (pt coords5moved 0)
        (pt coords5moved (((break_bonds coords5moved
            [[1, 2, 4], [0, 3, 0], [0, 0, 0], [1, 0, 0], [0, 0, 0]]
            [3, 2, 1, 1, 1] (11/10)).1.getD 0 []).getD 0 0))
      < (11/10) * (11/10) :=
  break_bonds_prefix_within_horizon coords5moved
    [[1, 2, 4], [0, 3, 0], [0, 0, 0], [1, 0, 0], [0, 0, 0]]
    [3, 2, 1, 1, 1] (11/10) (by decide) 0 0 (by decide)

/-- Coordinate Set falsifying C6's untouched-tail clause: three collinear
particles that have both moved far outside the horizon of particle 0. -/
def coordsCx : List (List ℚ) :=
  [[0, 0], [10, 0], [20, 0]]

/-- Bond list for the C6 counterexample: particle 0 is bonded to 1 and 2. -/
def nlCx : List (List ℕ) :=
  [[1, 2], [0, 0], [0, 0]]

/-- Valid counts for the C6 counterexample. -/
def nnCx : List ℕ :=
  [2, 0, 0]

/-- C6 counterexample: it is not true that slots at or beyond the final
(shrunk) `valid_count[i]` keep their pre-call values.  Breaking row 0 of
`nlCx` against `coordsCx` severs both bonds, ending with `valid_count = 0`,
yet slot 0 ends holding `2` where it held `1` before the call. -/
theorem break_bonds_rewrites_dead_slot :
    ¬ (∀ i m, (break_bonds coordsCx nlCx nnCx 1).2.getD i 0 ≤ m →
        ((break_bonds coordsCx nlCx nnCx 1).1.getD i []).getD m 0
          = (nlCx.getD i []).getD m 0) := by
  intro h
  exact absurd (h 0 0 (by decide)) (by decide)

/-- C6 amended: slots at or beyond the *pre-call* `valid_count[i]` keep
their values (slots between the final and the pre-call count may be
rewritten by the swaps), and the output for row `i` is computed from row
`i`'s own data alone, so processing one row never touches another. -/
theorem break_bonds_frame (r : List (List ℚ)) (nl : List (List ℕ)) (nn : List ℕ)
    (horizon : ℚ) (i : ℕ) :
    (∀ m, nn.getD i 0 ≤ m →
      ((break_bonds r nl nn horizon).1.getD i []).getD m 0
        = (nl.getD i []).getD m 0) ∧
    (i < nl.length →
      ((break_bonds r nl nn horizon).1.getD i [],
        (break_bonds r nl nn horizon).2.getD i 0)
        = breakRow r horizon i (nl.getD i []) (nn.getD i 0)) := by
  constructor
  · intro m hm
    by_cases hi : i < nl.length
    · rw [break_bonds_fst_getD r nl nn horizon i hi]
      simp only [breakRow]
      exact breakRowGo_getD_of_ge r horizon i (nn.getD i 0) (nl.getD i [])
        (nn.getD i 0) 0 m hm
    · rw [break_bonds_fst_getD_ge r nl nn horizon i (Nat.le_of_not_lt hi),
        List.getD_eq_default nl [] (Nat.le_of_not_lt hi)]
  · intro hi
    rw [break_bonds_fst_getD r nl nn horizon i hi, break_bonds_snd_getD, if_pos hi]

/-- Witness for C6 amended, on the five-particle scenario: slot 4 of row 0
(beyond the pre-call count 3) is unchanged, and row 0's output is its own
row computation. -/
theorem break_bonds_frame_witness :
    ((break_bonds coords5moved
        [[1, 2, 4], [0, 3, 0], [0, 0, 0], [1, 0, 0], [0, 0, 0]]
        [3, 2, 1, 1, 1] (11/10)).1.getD 0 []).getD 4 0
      = (([[1, 2, 4], [0, 3, 0], [0, 0, 0], [1, 0, 0], [0, 0, 0]] :
          List (List ℕ)).getD 0 []).getD 4 0 :=
  (break_bonds_frame coords5moved
    [[1, 2, 4], [0, 3, 0], [0, 0, 0], [1, 0, 0], [0, 0, 0]]
    [3, 2, 1, 1, 1] (11/10) 0).1 4 (by decide)

theorem map_range_getD {α : Type} (l : List α) (d : α) :
    (List.range l.length).map (fun i => l.getD i d) = l := by
  refine List.ext_getElem (by simp) ?_
  intro n h1 h2
  rw [List.getElem_map, List.getElem_range]
  exact List.getD_eq_getElem l d h2

theorem break_bonds_of_fixed (r : List (List ℚ)) (nl : List (List ℕ)) (nn : List ℕ)
    (horizon : ℚ) (hnn : nn.length = nl.length)
    (hfix : ∀ i, i < nl.length →
      breakRow r horizon i (nl.getD i []) (nn.getD i 0) = (nl.getD i [], nn.getD i 0)) :
    break_bonds r nl nn horizon = (nl, nn) := by
  simp only [break_bonds]
  rw [Prod.mk.injEq]
  constructor
  · have h1 : ∀ i ∈ List.range nl.length,
        (breakRow r horizon i (nl.getD i []) (nn.getD i 0)).1 = nl.getD i [] := by
      intro i hi
      rw [hfix i (List.mem_range.mp hi)]
    rw [List.map_congr_left h1, map_range_getD]
  · have h2 : ∀ i ∈ List.range nl.length,
        (breakRow r horizon i (nl.getD i []) (nn.getD i 0)).2 = nn.getD i 0 := by
      intro i hi
      rw [hfix i (List.mem_range.mp hi)]
    rw [List.map_congr_left h2, ← hnn, map_range_getD]

/-- C7: `break_bonds` is idempotent for fixed coordinates: a second call
with the same coordinates leaves the bond list and the counts exactly as
the first call left them. -/
theorem break_bonds_idempotent (r : List (List ℚ)) (nl : List (List ℕ)) (nn : List ℕ)
    (horizon : ℚ) :
    break_bonds r (break_bonds r nl nn horizon).1 (break_bonds r nl nn horizon).2 horizon
      = break_bonds r nl nn horizon := by
  have hlen1 : (break_bonds r nl nn horizon).1.length = nl.length := by
    simp [break_bonds]
  have hlen2 : (break_bonds r nl nn horizon).2.length = nl.length := by
    simp [break_bonds]
  refine (break_bonds_of_fixed r _ _ horizon (by rw [hlen1, hlen2]) ?_).trans
    Prod.mk.eta
  intro i hi
  rw [hlen1] at hi
  rw [break_bonds_fst_getD r nl nn horizon i hi, break_bonds_snd_getD, if_pos hi]
  simp only [breakRow]
  apply breakRowGo_fix
  intro m hm hmc
  exact breakRowGo_close r horizon i (nn.getD i 0) (nl.getD i [])
    (nn.getD i 0) 0 (by omega) m (Nat.zero_le m) hmc

/-- C8: a `break_bonds` call never increases any `valid_count` entry; over
any sequence of calls the counts are therefore non-increasing. -/
theorem break_bonds_count_nonincreasing (r : List (List ℚ)) (nl : List (List ℕ))
    (nn : List ℕ) (horizon : ℚ) (i : ℕ) :
    (break_bonds r nl nn horizon).2.getD i 0 ≤ nn.getD i 0 := by
  rw [break_bonds_snd_getD]
  by_cases hi : i < nl.length
  · rw [if_pos hi]
    exact breakRowGo_snd_le r horizon i (nn.getD i 0) (nl.getD i []) (nn.getD i 0) 0
  · rw [if_neg hi]
    exact Nat.zero_le _

/-- C9: no particle is ever bonded to itself: the rows built by
`create_neighbour_list` exclude the row's own index from the valid prefix,
and `break_bonds` preserves that exclusion, so it holds after any sequence
of calls. -/
theorem no_self_bond (rc : List (List ℚ)) (hc : ℚ) (capacity : ℕ)
    (r : List (List ℚ)) (nl : List (List ℕ)) (nn : List ℕ) (horizon : ℚ) :
    (∀ i, i < rc.length →
      ∀ m, m < (create_neighbour_list rc hc capacity).2.getD i 0 →
        ((create_neighbour_list rc hc capacity).1.getD i []).getD m 0 ≠ i) ∧
    ((∀ i, i < nl.length → ∀ m, m < nn.getD i 0 → (nl.getD i []).getD m 0 ≠ i) →
      ∀ i, i < nl.length →
        ∀ m, m < (break_bonds r nl nn horizon).2.getD i 0 →
          ((break_bonds r nl nn horizon).1.getD i []).getD m 0 ≠ i) := by
  constructor
  · intro i hi m hm
    rw [create_prefix_getD rc hc capacity i m hi hm]
    rw [create_snd_getD, if_pos hi] at hm
    have hmlen : m < (neighbours rc hc i).length :=
      lt_of_lt_of_le hm (min_le_left _ _)
    have hmem : (neighbours rc hc i).getD m 0 ∈ neighbours rc hc i :=
      mem_iff_getD.mpr ⟨m, hmlen, rfl⟩
    exact (mem_neighbours.mp hmem).2.1
  · intro hself i hi m hm
    rw [break_bonds_snd_getD, if_pos hi] at hm
    rw [break_bonds_fst_getD r nl nn horizon i hi]
    simp only [breakRow] at hm ⊢
    exact breakRowGo_ne_self r horizon i (nn.getD i 0) (nl.getD i [])
      (nn.getD i 0) 0 (hself i hi) m hm

/-- Witness for C9: after breaking the five-particle scenario's list, the
surviving entry of row 0 is not 0 itself; the self-freeness of the input
rows is checked by `decide`. -/
theorem no_self_bond_witness :
    ((break_bonds coords5moved
        [[1, 2, 4], [0, 3, 0], [0, 0, 0], [1, 0, 0], [0, 0, 0]]
        [3, 2, 1, 1, 1] (11/10)).1.getD 0 []).getD 0 0 ≠ 0 :=
  (no_self_bond coords4 (11/10) 3 coords5moved
    [[1, 2, 4], [0, 3, 0], [0, 0, 0], [1, 0, 0], [0, 0, 0]]
    [3, 2, 1, 1, 1] (11/10)).2 (by decide) 0 (by decide) 0 (by decide)

/-- C10: `break_bonds` loses no intact bond and invents none: an index in
the old valid prefix of row `i` that is still within the horizon of `i`
stays in the new valid prefix, and every index of the new valid prefix was
already in the old one. -/
theorem break_bonds_keeps_intact_bonds (r : List (List ℚ)) (nl : List (List ℕ))
    (nn : List ℕ) (horizon : ℚ) (i j : ℕ)
    (hwf : nn.getD i 0 ≤ (nl.getD i []).length) :
    ((∃ m, m < nn.getD i 0 ∧ (nl.getD i []).getD m 0 = j) →
        euclidSq (pt r i) (pt r j) < horizon * horizon →
        ∃ m, m < (break_bonds r nl nn horizon).2.getD i 0 ∧
          ((break_bonds r nl nn horizon).1.getD i []).getD m 0 = j) ∧
    ((∃ m, m < (break_bonds r nl nn horizon).2.getD i 0 ∧
        ((break_bonds r nl nn horizon).1.getD i []).getD m 0 = j) →
      ∃ m, m < nn.getD i 0 ∧ (nl.getD i []).getD m 0 = j) := by
  by_cases hi : i < nl.length
  · constructor
    · rintro ⟨m, hm, hj⟩ hclose
      rw [break_bonds_snd_getD, if_pos hi, break_bonds_fst_getD r nl nn horizon i hi]
      simp only [breakRow]
      exact breakRowGo_mem_new r horizon i (nn.getD i 0) (nl.getD i [])
        (nn.getD i 0) 0 j hwf (by simp [isClose, hclose]) ⟨m, Nat.zero_le m, hm, hj⟩
    · rintro ⟨m, hm, hj⟩
      rw [break_bonds_snd_getD, if_pos hi] at hm
      rw [break_bonds_fst_getD r nl nn horizon i hi] at hj
      simp only [breakRow] at hm hj
      exact breakRowGo_mem_old r horizon i (nn.getD i 0) (nl.getD i [])
        (nn.getD i 0) 0 j ⟨m, hm, hj⟩
  · have hnl : nl.getD i [] = [] := List.getD_eq_default nl [] (Nat.le_of_not_lt hi)
    have hn : nn.getD i 0 = 0 := by
      rw [hnl] at hwf
      exact Nat.le_zero.mp hwf
    constructor
    · rintro ⟨m, hm, _⟩ _
      rw [hn] at hm
      exact absurd hm (Nat.not_lt_zero m)
    · rintro ⟨m, hm, _⟩
      rw [break_bonds_snd_getD, if_neg hi] at hm
      exact absurd hm (Nat.not_lt_zero m)

/-- Witness for C10 on the five-particle scenario: particle 2 was bonded to
particle 0, remains within the horizon after displacement, and survives
into the new prefix of row 0; conversely the new prefix entry was an old
one. -/
theorem break_bonds_keeps_intact_bonds_witness :
    ∃ m, m < (break_bonds coords5moved
        [[1, 2, 4], [0, 3, 0], [0, 0, 0], [1, 0, 0], [0, 0, 0]]
        [3, 2, 1, 1, 1] (11/10)).2.getD 0 0 ∧
      ((break_bonds coords5moved
        [[1, 2, 4], [0, 3, 0], [0, 0, 0], [1, 0, 0], [0, 0, 0]]
        [3, 2, 1, 1, 1] (11/10)).1.getD 0 []).getD m 0 = 2 :=
  (break_bonds_keeps_intact_bonds coords5moved
    [[1, 2, 4], [0, 3, 0], [0, 0, 0], [1, 0, 0], [0, 0, 0]]
    [3, 2, 1, 1, 1] (11/10) 0 2 (by decide)).1
    ⟨1, by decide, by decide⟩ (by decide)
